import Mathlib

/-!
Verification development for the `diffreducer` program (src/src/main.rs).

The program reads a unified diff, parses it into a tree of file diffs,
hunks ("chunks") and blocks ("chunk lineses"), filters out "noise" changed
blocks via a fixed replacement table, and prints the surviving tree.

The embedding below follows the Rust source closely:
  * strings are `List Char` (the inputs of interest are ASCII);
  * Rust panics (`split_at` out of bounds, the `panic!` on an unexpected
    line prefix, `unwrap` failures) are modelled as `Except.error`;
  * the two regexes are modelled as explicit scanners with the semantics
    of `Regex::find_iter` (leftmost, non-overlapping matches); the
    `(?m)^`-anchored file-header regex is only tried at line starts,
    the unanchored chunk-header regex at every position;
  * `\s` of the `\s{2,}` regex is modelled by the ASCII whitespace
    characters (the only ones relevant to the inputs considered here).
Recursions that are not structural in their list argument use an explicit
fuel parameter (always called with fuel = length, which is sufficient),
so that all definitions reduce by `decide`/`rfl`.
-/

/-- `struct Changed` of the source: the removed and added line groups of a
changed block.  Each stored line is the text after the `-`/`+` tag. -/
structure Changed where
  removed : List (List Char)
  added : List (List Char)
deriving DecidableEq

/-- `enum ChunkLines` of the source: a block is either a run of context
lines (stored after `split_at(1)`, i.e. without the leading space) or a
`Changed` group. -/
inductive ChunkLines where
  | context (lines : List (List Char)) : ChunkLines
  | changed (c : Changed) : ChunkLines
deriving DecidableEq

/-- `struct Chunk` of the source: one hunk, its verbatim `@@` header line
and its blocks. -/
structure Chunk where
  header : List Char
  lineses : List ChunkLines
deriving DecidableEq

/-- `struct FileDiff` of the source: one file, its verbatim header text and
its hunks. -/
structure FileDiff where
  header : List Char
  chunks : List Chunk
deriving DecidableEq

/-- Strip one trailing carriage return, as Rust `str::lines` does for each
line that ended in `\r\n`. -/
def stripCR (l : List Char) : List Char :=
  match l.getLast? with
  | some '\r' => l.dropLast
  | _ => l

/-- Accumulator worker for `splitLines`. -/
def splitLinesAux (acc : List Char) : List Char → List (List Char)
  | [] => if acc.isEmpty then [] else [acc.reverse]
  | c :: s =>
    if c = '\n' then stripCR acc.reverse :: splitLinesAux [] s
    else splitLinesAux (c :: acc) s

/-- Rust `str::lines`: split at `\n`, strip a `\r` before each `\n`, and
yield a final unterminated segment only if it is nonempty. -/
def splitLines (s : List Char) : List (List Char) :=
  splitLinesAux [] s

/-- Rust `line.split_at(1)`: detach the tag character.  On an empty line
this panics (`byte index 1 is out of bounds`), modelled as an error. -/
def parseLine (l : List Char) : Except String (Char × List Char) :=
  match l with
  | [] => .error "byte index 1 is out of bounds"
  | c :: rest => .ok (c, rest)

/-- The `chunk_by` predicate of the source:
`|&(a, _), &(b, _)| a == b || a == "-" && b == "+"`. -/
def tagPred (a b : Char × List Char) : Bool :=
  a.fst == b.fst || (a.fst == '-' && b.fst == '+')

/-- Worker for `chunkBy`: `a` is the first element of the current group. -/
def chunkByAux (p : α → α → Bool) (a : α) : List α → List (List α)
  | [] => [[a]]
  | b :: l =>
    if p a b then
      match chunkByAux p b l with
      | [] => [[a]]
      | g :: gs => (a :: g) :: gs
    else [a] :: chunkByAux p b l

/-- Rust slice `chunk_by`: group consecutive elements while the predicate
holds between neighbours. -/
def chunkBy (p : α → α → Bool) : List α → List (List α)
  | [] => []
  | a :: l => chunkByAux p a l

/-- Short-circuiting `mapM` for `Except`, the model of iterator
`map`+`collect` in which a panic aborts at the first failing element. -/
def mapME (f : α → Except String β) : List α → Except String (List β)
  | [] => .ok []
  | x :: xs =>
    match f x with
    | .error e => .error e
    | .ok y =>
      match mapME f xs with
      | .error e => .error e
      | .ok ys => .ok (y :: ys)

/-- The match on `(lines.first().unwrap().0, lines.last().unwrap().0)` in
the source: build a `Context` or `Changed` block from one tagged group, or
panic on an unexpected prefix character. -/
def mkChunkLines (g : List (Char × List Char)) : Except String ChunkLines :=
  match g with
  | [] => .error "called unwrap on a None value"
  | x :: xs =>
    let f := x.fst
    let l := (xs.getLastD x).fst
    if f = ' ' ∧ l = ' ' then
      .ok (.context (g.map Prod.snd))
    else if (f = '+' ∧ l = '+') ∨ (f = '-' ∧ l = '+') ∨ (f = '-' ∧ l = '-') then
      .ok (.changed
        { removed := (g.takeWhile (fun q => q.fst == '-')).map Prod.snd
          added := (g.dropWhile (fun q => q.fst == '-')).map Prod.snd })
    else .error "Unexpected prefix characters"

/-- Parse the body text of one hunk into its blocks, as the source does:
split into lines, `split_at(1)` each, group with `chunk_by`, classify. -/
def parseChunkText (s : List Char) : Except String (List ChunkLines) :=
  match mapME parseLine (splitLines s) with
  | .error e => .error e
  | .ok tagged => mapME mkChunkLines (chunkBy tagPred tagged)

/-- Model of the regex fragment `.+\n` (greedy, `.` excludes `\n`): the
number of characters consumed, when it matches at the front. -/
def matchDotPlusNL (s : List Char) : Option Nat :=
  let t := s.takeWhile (fun c => !(c == '\n'))
  if t.length == 0 then none
  else
    match s.drop t.length with
    | '\n' :: _ => some (t.length + 1)
    | _ => none

/-- Model of the chunk-header regex `@@ .+\n` matching at the front of `s`
(the regex is unanchored, so the caller tries every position). -/
def matchChunkHeaderN (s : List Char) : Option Nat :=
  if ("@@ ".toList).isPrefixOf s then
    (matchDotPlusNL (s.drop 3)).map (fun n => n + 3)
  else none

/-- `find_iter` for the chunk-header regex: returns the text before the
first match, and for each match the matched header together with the text
from the end of the match to the start of the next match (or the end).
`fuel` is called with the length of the list. -/
def findChunksAux : Nat → List Char → List Char × List (List Char × List Char)
  | _, [] => ([], [])
  | 0, s => (s, [])
  | fuel + 1, c :: s =>
    match matchChunkHeaderN (c :: s) with
    | some n =>
      let r := findChunksAux fuel ((c :: s).drop n)
      ([], ((c :: s).take n, r.1) :: r.2)
    | none =>
      let r := findChunksAux fuel s
      (c :: r.1, r.2)

/-- Hexadecimal digit per the character class `[0-9a-f]` of the source. -/
def isHexDigit (c : Char) : Bool :=
  decide (('0' ≤ c ∧ c ≤ '9') ∨ ('a' ≤ c ∧ c ≤ 'f'))

/-- Decimal digit per `\d`. -/
def isAsciiDigit (c : Char) : Bool :=
  decide ('0' ≤ c ∧ c ≤ '9')

/-- Does `[0-9a-f]+..[0-9a-f]+ \d+` match the whole line `L`?  (`..` is two
unescaped dots in the source regex, i.e. any two characters.)  Match
success is what determines the header span, so a Bool suffices. -/
def indexBodyOk (L : List Char) : Bool :=
  (List.range (L.length + 1)).any (fun h1 =>
    decide (1 ≤ h1) && decide (h1 ≤ (L.takeWhile isHexDigit).length) &&
    (let r1 := L.drop h1
     decide (2 ≤ r1.length) &&
     (let r2 := r1.drop 2
      (List.range (r2.length + 1)).any (fun h2 =>
        decide (1 ≤ h2) && decide (h2 ≤ (r2.takeWhile isHexDigit).length) &&
        (match r2.drop h2 with
         | ' ' :: d => decide (1 ≤ d.length) && d.all isAsciiDigit
         | _ => false)))))

/-- Model of `diff --git a/.+ b/.+\n` matching at the front of `s`:
consumes the whole line when some split `X b/Y` with nonempty `X`, `Y`
exists after `a/`. -/
def matchDiffGitLine (s : List Char) : Option Nat :=
  if ("diff --git a/".toList).isPrefixOf s then
    let rest := s.drop 13
    let L := rest.takeWhile (fun c => !(c == '\n'))
    match rest.drop L.length with
    | '\n' :: _ =>
      if (List.range L.length).any (fun k =>
            decide (1 ≤ k) && (" b/".toList).isPrefixOf (L.drop k) &&
            decide (k + 4 ≤ L.length))
      then some (13 + L.length + 1)
      else none
    | _ => none
  else none

/-- Model of `index [0-9a-f]+..[0-9a-f]+ \d+\n` matching at the front. -/
def matchIndexLineN (s : List Char) : Option Nat :=
  if ("index ".toList).isPrefixOf s then
    let rest := s.drop 6
    let L := rest.takeWhile (fun c => !(c == '\n'))
    match rest.drop L.length with
    | '\n' :: _ => if indexBodyOk L then some (6 + L.length + 1) else none
    | _ => none
  else none

/-- Model of the mandatory tail `--- .+\n[+]{3} .+\n` of the file-header
regex matching at the front. -/
def matchTailLinesN (s : List Char) : Option Nat :=
  if ("--- ".toList).isPrefixOf s then
    match matchDotPlusNL (s.drop 4) with
    | some a =>
      let s2 := s.drop (4 + a)
      if ("+++ ".toList).isPrefixOf s2 then
        (matchDotPlusNL (s2.drop 4)).map (fun b => 4 + a + 4 + b)
      else none
    | none => none
  else none

/-- The whole file-header regex at the front of `s`: the optional
`diff --git`/`index` pair is tried first (greedy `(?:...)?`); if the
mandatory tail fails after it, the engine falls back to matching the tail
at the start position itself. -/
def matchFileHeaderN (s : List Char) : Option Nat :=
  let tail0 := matchTailLinesN s
  match matchDiffGitLine s with
  | none => tail0
  | some n1 =>
    match matchIndexLineN (s.drop n1) with
    | none => tail0
    | some n2 =>
      match matchTailLinesN (s.drop (n1 + n2)) with
      | some m => some (n1 + n2 + m)
      | none => tail0

/-- `find_iter` for the `(?m)^`-anchored file-header regex: matches are
attempted only at line starts (tracked by `atStart`); returns the text
before the first match and the (header, following text) spans.  `fuel` is
called with the length of the list. -/
def findFilesAux : Nat → Bool → List Char → List Char × List (List Char × List Char)
  | _, _, [] => ([], [])
  | 0, _, s => (s, [])
  | fuel + 1, atStart, c :: s =>
    match (if atStart then matchFileHeaderN (c :: s) else none) with
    | some n =>
      let r := findFilesAux fuel true ((c :: s).drop n)
      ([], ((c :: s).take n, r.1) :: r.2)
    | none =>
      let r := findFilesAux fuel (c == '\n') s
      (c :: r.1, r.2)

/-- The file-header spans of the input, in order. -/
def fileSpans (input : List Char) : List (List Char × List Char) :=
  (findFilesAux input.length true input).2

/-- The chunk-header spans of one file's hunk text. -/
def chunkSpans (ct : List Char) : List (List Char × List Char) :=
  (findChunksAux ct.length ct).2

/-- Parse one file's hunk text into chunks. -/
def parseChunks (ct : List Char) : Except String (List Chunk) :=
  mapME (fun p =>
    match parseChunkText p.2 with
    | .error e => .error e
    | .ok ls => .ok (Chunk.mk p.1 ls)) (chunkSpans ct)

/-- Build the `FileDiff`s from the header spans.  As in the source, the
hunk text of every file but the last is the text between the end of its
header and the start of the next header; for the last file the source
slices from `current.start()`, so its hunk text includes the header. -/
def buildFiles : List (List Char × List Char) → Except String (List FileDiff)
  | [] => .ok []
  | [(h, c)] =>
    (match parseChunks (h ++ c) with
     | .error e => .error e
     | .ok chs => .ok [FileDiff.mk h chs])
  | (h, c) :: p :: rest =>
    match parseChunks c with
    | .error e => .error e
    | .ok chs =>
      match buildFiles (p :: rest) with
      | .error e => .error e
      | .ok fs => .ok (FileDiff.mk h chs :: fs)

/-- The whole parser of the source `main`, up to the `files` value before
filtering. -/
def parseInput (input : List Char) : Except String (List FileDiff) :=
  buildFiles (fileSpans input)

/-- The hunk texts that feed `parseChunkText`, file by file, mirroring
`buildFiles` (last file includes its header in the scanned text). -/
def chunksTexts : List (List Char × List Char) → List (List Char)
  | [] => []
  | [(h, c)] => [h ++ c]
  | (_, c) :: p :: rest => c :: chunksTexts (p :: rest)

/-- All hunk body texts of the input, as the parser decomposes it: for
every chunk-header match, the text between it and the next match. -/
def allChunkContents (input : List Char) : List (List Char) :=
  ((chunksTexts (fileSpans input)).map (fun ct => (chunkSpans ct).map Prod.snd)).flatten

/-- ASCII whitespace, the relevant fragment of the regex class `\s`. -/
def isWsChar (c : Char) : Bool :=
  c == ' ' || c == '\t' || c == '\n' || c == '\x0b' || c == '\x0c' || c == '\r'

/-- Worker for `collapseWs` with explicit fuel (called with the length). -/
def collapseWsF : Nat → List Char → List Char
  | _, [] => []
  | 0, s => s
  | fuel + 1, c :: s =>
    if isWsChar c && (match s with | [] => false | d :: _ => isWsChar d) then
      ' ' :: collapseWsF fuel (s.dropWhile isWsChar)
    else c :: collapseWsF fuel s

/-- `multiple_whitespace_re.replace_all(s, " ")` for `\s{2,}`: each maximal
run of two or more whitespace characters becomes a single space. -/
def collapseWs (s : List Char) : List Char :=
  collapseWsF s.length s

/-- Worker for `replaceAll` with explicit fuel (called with the length). -/
def replaceAllF (p r : List Char) : Nat → List Char → List Char
  | _, [] => []
  | 0, s => s
  | fuel + 1, c :: s =>
    if !p.isEmpty && p.isPrefixOf (c :: s) then
      r ++ replaceAllF p r fuel (s.drop (p.length - 1))
    else c :: replaceAllF p r fuel s

/-- Rust `str::replace`: replace every non-overlapping occurrence of `p`
by `r`, scanning left to right.  (The source never calls it with an empty
pattern.) -/
def replaceAll (p r s : List Char) : List Char :=
  replaceAllF p r s.length s

/-- The static `REPLACEMENTS` table of the source, in its exact order. -/
def REPLACEMENTS : List (List Char × List Char) := [
  ("ET_UNKNOWN".toList, "EventType::kUnknown".toList),
  ("ET_MOUSE_PRESSED".toList, "EventType::kMousePressed".toList),
  ("ET_MOUSE_DRAGGED".toList, "EventType::kMouseDragged".toList),
  ("ET_MOUSE_RELEASED".toList, "EventType::kMouseReleased".toList),
  ("ET_MOUSE_MOVED".toList, "EventType::kMouseMoved".toList),
  ("ET_MOUSE_ENTERED".toList, "EventType::kMouseEntered".toList),
  ("ET_MOUSE_EXITED".toList, "EventType::kMouseExited".toList),
  ("ET_KEY_PRESSED".toList, "EventType::kKeyPressed".toList),
  ("ET_KEY_RELEASED".toList, "EventType::kKeyReleased".toList),
  ("ET_MOUSEWHEEL".toList, "EventType::kMousewheel".toList),
  ("ET_MOUSE_CAPTURE_CHANGED".toList, "EventType::kMouseCaptureChanged".toList),
  ("ET_TOUCH_RELEASED".toList, "EventType::kTouchReleased".toList),
  ("ET_TOUCH_PRESSED".toList, "EventType::kTouchPressed".toList),
  ("ET_TOUCH_MOVED".toList, "EventType::kTouchMoved".toList),
  ("ET_TOUCH_CANCELLED".toList, "EventType::kTouchCancelled".toList),
  ("ET_DROP_TARGET_EVENT".toList, "EventType::kDropTargetEvent".toList),
  ("ET_GESTURE_SCROLL_BEGIN".toList, "EventType::kGestureScrollBegin".toList),
  ("ET_GESTURE_TYPE_START".toList, "EventType::kGestureTypeStart".toList),
  ("ET_GESTURE_SCROLL_END".toList, "EventType::kGestureScrollEnd".toList),
  ("ET_GESTURE_SCROLL_UPDATE".toList, "EventType::kGestureScrollUpdate".toList),
  ("ET_GESTURE_TAP_DOWN".toList, "EventType::kGestureTapDown".toList),
  ("ET_GESTURE_TAP_CANCEL".toList, "EventType::kGestureTapCancel".toList),
  ("ET_GESTURE_TAP_UNCONFIRMED".toList, "EventType::kGestureTapUnconfirmed".toList),
  ("ET_GESTURE_TAP".toList, "EventType::kGestureTap".toList),
  ("ET_GESTURE_DOUBLE_TAP".toList, "EventType::kGestureDoubleTap".toList),
  ("ET_GESTURE_BEGIN".toList, "EventType::kGestureBegin".toList),
  ("ET_GESTURE_END".toList, "EventType::kGestureEnd".toList),
  ("ET_GESTURE_TWO_FINGER_TAP".toList, "EventType::kGestureTwoFingerTap".toList),
  ("ET_GESTURE_PINCH_BEGIN".toList, "EventType::kGesturePinchBegin".toList),
  ("ET_GESTURE_PINCH_END".toList, "EventType::kGesturePinchEnd".toList),
  ("ET_GESTURE_PINCH_UPDATE".toList, "EventType::kGesturePinchUpdate".toList),
  ("ET_GESTURE_SHORT_PRESS".toList, "EventType::kGestureShortPress".toList),
  ("ET_GESTURE_LONG_PRESS".toList, "EventType::kGestureLongPress".toList),
  ("ET_GESTURE_LONG_TAP".toList, "EventType::kGestureLongTap".toList),
  ("ET_GESTURE_SWIPE".toList, "EventType::kGestureSwipe".toList),
  ("ET_GESTURE_SHOW_PRESS".toList, "EventType::kGestureShowPress".toList),
  ("ET_SCROLL_FLING_START".toList, "EventType::kScrollFlingStart".toList),
  ("ET_SCROLL_FLING_CANCEL".toList, "EventType::kScrollFlingCancel".toList),
  ("ET_SCROLL".toList, "EventType::kScroll".toList),
  ("ET_GESTURE_TYPE_END".toList, "EventType::kGestureTypeEnd".toList),
  ("ET_CANCEL_MODE".toList, "EventType::kCancelMode".toList),
  ("ET_UMA_DATA".toList, "EventType::kUmaData".toList),
  ("ET_LAST".toList, "EventType::kLast".toList)]

/-- The fold over the replacement table applied to the removed text. -/
def applyReplacements (s : List Char) : List Char :=
  REPLACEMENTS.foldl (fun cur r => replaceAll r.1 r.2 cur) s

/-- The canonicalization the filter applies to one line group: join with a
single space, collapse whitespace runs, then turn every occurrence of an
open parenthesis followed by a space into the parenthesis alone. -/
def normalizeLines (lines : List (List Char)) : List Char :=
  replaceAll ("( ".toList) ("(".toList) (collapseWs (List.intercalate [' '] lines))

/-- The per-block decision of the noise filter (`filter_map` closure of the
source): keep blocks with an empty side unconditionally, otherwise drop the
block exactly when the transformed removed text equals the added text. -/
def filterChunkLines (cl : ChunkLines) : Option ChunkLines :=
  match cl with
  | .changed c =>
    if c.removed = [] ∨ c.added = [] then some (.changed c)
    else
      let removedText :=
        replaceAll ("( ".toList) ("(".toList) (collapseWs (List.intercalate [' '] c.removed))
      let addedText :=
        replaceAll ("( ".toList) ("(".toList) (collapseWs (List.intercalate [' '] c.added))
      let transformedText := REPLACEMENTS.foldl (fun cur r => replaceAll r.1 r.2 cur) removedText
      if transformedText = addedText then none else some (.changed c)
  | cl' => some cl'

/-- The `any(.. ChunkLines::Changed ..)` test of the source. -/
def isChangedCL : ChunkLines → Bool
  | .changed _ => true
  | _ => false

/-- Per-hunk filtering: keep the hunk only if some surviving block is a
changed block. -/
def filterChunk (ch : Chunk) : Option Chunk :=
  let newLineses := ch.lineses.filterMap filterChunkLines
  if newLineses.any isChangedCL then some (Chunk.mk ch.header newLineses)
  else none

/-- Per-file filtering: keep the file only if some hunk survives. -/
def filterFile (f : FileDiff) : Option FileDiff :=
  let chunks := f.chunks.filterMap filterChunk
  if chunks = [] then none else some (FileDiff.mk f.header chunks)

/-- The whole filtering pass. -/
def filterFiles (fs : List FileDiff) : List FileDiff :=
  fs.filterMap filterFile

/-- `Display` of one block: context lines are printed as stored (the
leading space stripped by parsing is not restored), removed and added
lines with their `-`/`+` tags, every line with a trailing newline. -/
def renderChunkLines : ChunkLines → List Char
  | .context lines => (lines.map (fun l => l ++ ['\n'])).flatten
  | .changed c =>
    (c.removed.map (fun l => '-' :: (l ++ ['\n']))).flatten ++
    (c.added.map (fun l => '+' :: (l ++ ['\n']))).flatten

/-- `Display` of one hunk: header then blocks. -/
def renderChunk (ch : Chunk) : List Char :=
  ch.header ++ (ch.lineses.map renderChunkLines).flatten

/-- `Display` of one file: header then hunks. -/
def renderFileDiff (f : FileDiff) : List Char :=
  f.header ++ (f.chunks.map renderChunk).flatten

/-- Serialization of a parse tree: the concatenated `Display` output of its
files (no separators beyond what each block emits). -/
def serializeFiles (fs : List FileDiff) : List Char :=
  (fs.map renderFileDiff).flatten

/-- What `main` prints: `println!` appends one newline after each file. -/
def programOutput (fs : List FileDiff) : List Char :=
  (fs.map (fun f => renderFileDiff f ++ ['\n'])).flatten

/-- The whole program on one input: parse, filter, print.  A Rust panic
during parsing is an `Except.error`, and then nothing is printed. -/
def run (input : List Char) : Except String (List Char) :=
  match parseInput input with
  | .error e => .error e
  | .ok fs => .ok (programOutput (filterFiles fs))

/-- Serialization of the unfiltered parse result, `none` if parsing
fails. -/
def parseSerialized (input : List Char) : Option (List Char) :=
  match parseInput input with
  | .error _ => none
  | .ok fs => some (serializeFiles fs)

/-- Does `p` occur as a contiguous substring of `s`? -/
def containsSub (p : List Char) : List Char → Bool
  | [] => p.isEmpty
  | c :: s => p.isPrefixOf (c :: s) || containsSub p s

/-- `p` occurs in `s` at position `i`. -/
def subAt (p s : List Char) (i : Nat) : Prop :=
  p <+: s.drop i

instance (p s : List Char) (i : Nat) : Decidable (subAt p s i) :=
  inferInstanceAs (Decidable (p <+: s.drop i))

/-- Modelled from the spec: the spec's canonicalization additionally says
to strip a leading line-comment marker (and one following space) from the
start of each line before joining; no such stripping exists in the source.
The marker of the C++ sources the tool targets is `//`. -/
def stripLineComment (l : List Char) : List Char :=
  if ("// ".toList).isPrefixOf l then l.drop 3
  else if ("//".toList).isPrefixOf l then l.drop 2
  else l

/-- Modelled from the spec: the canonicalization pipeline exactly as the
spec words it, including the comment-marker stripping step. -/
def normalizeLinesSpec (lines : List (List Char)) : List Char :=
  replaceAll ("( ".toList) ("(".toList)
    (collapseWs (List.intercalate [' '] (lines.map stripLineComment)))

/-- A minimal valid diff containing a context line, ending with a
newline. -/
def c1input : List Char :=
  "--- a\n+++ b\n@@ -1,2 +1,2 @@\n ctx\n-x\n+y\n".toList

/-- What the program's serializer actually produces for `c1input`: the
context line has lost its leading space. -/
def c1reserialized : List Char :=
  "--- a\n+++ b\n@@ -1,2 +1,2 @@\nctx\n-x\n+y\n".toList

/-- The first end-to-end example input of the spec: one file header, one
hunk, removed and added line differing by the `ET_UNKNOWN` rename plus
leading whitespace. -/
def c3input1 : List Char :=
  "--- a\n+++ b\n@@ -1,2 +1,2 @@\n-  int x = ET_UNKNOWN;\n+int x = EventType::kUnknown;\n".toList

/-- The second end-to-end example input of the spec, identical but with a
different added line. -/
def c3input2 : List Char :=
  "--- a\n+++ b\n@@ -1,2 +1,2 @@\n-  int x = ET_UNKNOWN;\n+int x = EventType::kKeyPressed;\n".toList

/-- A valid diff whose hunk body ends with a no-newline marker line whose
payload is the exact annotation text git emits. -/
def c4input : List Char :=
  "--- a\n+++ b\n@@ -1 +1 @@\n-x\n+y\n\\ No newline at end of file".toList

/-- A diff whose hunk body contains a line prefixed `*`. -/
def c5input : List Char :=
  "--- a\n+++ b\n@@ -1 +1 @@\n*x\n".toList

/-- A diff whose hunk body contains an empty line. -/
def c10input : List Char :=
  "--- a\n+++ b\n@@ -1 +1 @@\n x\n\n y\n".toList

/-- The removed-line group used to refute the claimed comment-stripping
step. -/
def c2removed : List (List Char) := [("// ET_UNKNOWN".toList)]

/-- The added-line group used to refute the claimed comment-stripping
step. -/
def c2added : List (List Char) := [("EventType::kUnknown".toList)]

/-- The replacement table's pattern for the gesture-tap-down token. -/
def tapDownPat : List Char := "ET_GESTURE_TAP_DOWN".toList

/-- The replacement table's replacement for the gesture-tap-down token. -/
def tapDownRep : List Char := "EventType::kGestureTapDown".toList

/-- The common three-character prefix of every pattern in the table. -/
def etMark : List Char := "ET_".toList

/-- A text in which an occurrence of the scroll-update pattern overlaps
the occurrence of the tap-down pattern (they share one character). -/
def c7text : List Char :=
  "ET_GESTURE_SCROLL_UPDATET_GESTURE_TAP_DOWN".toList

/-- C1.  The round-trip claim fails on the code: parsing `c1input` (a
syntactically valid diff) and re-serializing the unfiltered result drops
the leading space of the context line, so the output differs from the
input.  The spec's serializer (section 4.3) prescribes the space prefix and
the round-trip is the stated primary contract, so the `Display`
implementation for context blocks is a code bug. -/
theorem C1_roundtrip_violation :
    parseSerialized c1input = some c1reserialized ∧ c1reserialized ≠ c1input :=
  ⟨rfl, by decide⟩

/-- C3 counterexample.  On the spec's first end-to-end example the output
is not empty: collapsing the two leading spaces of the removed line yields
one space, the added line has none, so the transformed texts differ and
the block is kept. -/
theorem C3_counterexample : run c3input1 ≠ Except.ok [] := by
  intro h
  have h0 : run c3input1 = Except.ok (c3input1 ++ ['\n']) := rfl
  rw [h0] at h
  exact absurd (Except.ok.inj h) (by decide)

/-- C3 amended.  For both example inputs the program keeps the file, hunk
and changed block verbatim (plus the newline `println!` appends after the
file): in the first input the transformed removed text keeps a leading
space that the added line lacks, so it is not elided. -/
theorem C3_end_to_end :
    run c3input1 = Except.ok (c3input1 ++ ['\n']) ∧
    run c3input2 = Except.ok (c3input2 ++ ['\n']) :=
  ⟨rfl, rfl⟩

/-- C2 counterexample.  The filter does not strip a leading line-comment
marker: on removed line `// ET_UNKNOWN` the code's normalization keeps the
marker and the block is kept, while under the pipeline the claim describes
(with stripping) the transformed removed text would equal the added text
and the block would be elided. -/
theorem C2_counterexample :
    normalizeLines c2removed ≠ normalizeLinesSpec c2removed ∧
    filterChunkLines (.changed ⟨c2removed, c2added⟩) =
      some (.changed ⟨c2removed, c2added⟩) ∧
    applyReplacements (normalizeLinesSpec c2removed) = normalizeLinesSpec c2added :=
  ⟨by decide, rfl, rfl⟩

/-- C2 amended.  For blocks with both sides nonempty the filter decides
elision by exactly the pipeline: join the group's lines with a single
space, collapse every run of two or more whitespace characters into one
space, replace every `( ` by `(`; there is no comment-marker stripping. -/
theorem C2_pipeline (c : Changed) (h1 : c.removed ≠ []) (h2 : c.added ≠ []) :
    filterChunkLines (.changed c) =
      if applyReplacements (normalizeLines c.removed) = normalizeLines c.added
      then none else some (.changed c) := by
  simp only [filterChunkLines, normalizeLines, applyReplacements]
  rw [if_neg (not_or.mpr ⟨h1, h2⟩)]

/-- C2 witness: the amended pipeline theorem applied at a concrete
block. -/
theorem C2_pipeline_witness :
    filterChunkLines (.changed ⟨[['x']], [['y']]⟩) =
      if applyReplacements (normalizeLines [['x']]) = normalizeLines [['y']]
      then none else some (.changed ⟨[['x']], [['y']]⟩) :=
  C2_pipeline ⟨[['x']], [['y']]⟩ (by decide) (by decide)

/-- C7 counterexample.  A text containing `ET_GESTURE_TAP_DOWN` whose
occurrence overlaps an occurrence of the earlier-listed pattern
`ET_GESTURE_SCROLL_UPDATE` (they share one character): the earlier rule
consumes the shared character first, so the tap-down occurrence is not
rewritten to `EventType::kGestureTapDown` at all. -/
theorem C7_counterexample :
    containsSub tapDownPat c7text = true ∧
    applyReplacements c7text =
      "EventType::kGestureScrollUpdateT_GESTURE_TAP_DOWN".toList ∧
    containsSub tapDownRep (applyReplacements c7text) = false :=
  ⟨rfl, rfl, rfl⟩

/-- The per-block filter never rewrites a block: whenever it keeps one, it
returns the input block itself. -/
theorem filterChunkLines_some_eq {cl cl' : ChunkLines}
    (h : filterChunkLines cl = some cl') : cl' = cl := by
  cases cl with
  | context lines =>
    simp only [filterChunkLines] at h
    exact (Option.some.inj h).symm
  | changed c =>
    simp only [filterChunkLines] at h
    split at h
    · exact (Option.some.inj h).symm
    · split at h
      · cases h
      · exact (Option.some.inj h).symm

/-- C6.  A changed block with an empty removed or added side is kept
unconditionally by the per-block filter, and is therefore present in the
filtered blocks of any surviving hunk that contained it. -/
theorem C6_pure_insertion_kept (c : Changed) (ch ch' : Chunk)
    (h : c.removed = [] ∨ c.added = []) :
    filterChunkLines (.changed c) = some (.changed c) ∧
    (ChunkLines.changed c ∈ ch.lineses → filterChunk ch = some ch' →
      ChunkLines.changed c ∈ ch'.lineses) := by
  have h1 : filterChunkLines (.changed c) = some (.changed c) := by
    simp only [filterChunkLines]
    rw [if_pos h]
  refine ⟨h1, fun hmem hch => ?_⟩
  simp only [filterChunk] at hch
  split at hch
  · obtain rfl : ch' = Chunk.mk ch.header (ch.lineses.filterMap filterChunkLines) :=
      (Option.some.inj hch).symm
    exact List.mem_filterMap.mpr ⟨ChunkLines.changed c, hmem, h1⟩
  · cases hch

/-- C6 witness: the theorem applied at a concrete pure-insertion block
inside a surviving hunk. -/
theorem C6_witness :
    ChunkLines.changed ⟨[], [['a']]⟩ ∈
      (Chunk.mk [] [ChunkLines.changed ⟨[], [['a']]⟩]).lineses :=
  (C6_pure_insertion_kept ⟨[], [['a']]⟩
      (Chunk.mk [] [ChunkLines.changed ⟨[], [['a']]⟩])
      (Chunk.mk [] [ChunkLines.changed ⟨[], [['a']]⟩])
      (Or.inl rfl)).2 (by decide) (by decide)

/-- C8.  A hunk is discarded exactly when no surviving block is a changed
block, and a file is discarded exactly when it has no surviving hunks. -/
theorem C8_discard_iff (ch : Chunk) (f : FileDiff) :
    (filterChunk ch = none ↔
      ∀ cl ∈ ch.lineses.filterMap filterChunkLines, isChangedCL cl = false) ∧
    (filterFile f = none ↔ f.chunks.filterMap filterChunk = []) := by
  constructor
  · simp only [filterChunk]
    split
    · rename_i hany
      rw [List.any_eq_true] at hany
      obtain ⟨x, hx, hpx⟩ := hany
      refine ⟨(fun h => nomatch h), fun hall => ?_⟩
      rw [hall x hx] at hpx
      cases hpx
    · rename_i hany
      rw [Bool.not_eq_true, List.any_eq_false] at hany
      exact ⟨fun _ cl hcl => Bool.eq_false_iff.mpr (hany cl hcl), fun _ => rfl⟩
  · simp only [filterFile]
    split
    · rename_i hempty
      exact ⟨fun _ => hempty, fun _ => rfl⟩
    · rename_i hne
      exact ⟨(fun h => nomatch h), fun h => absurd h hne⟩

/-- C8 witness: the theorem instantiated at a context-only hunk and an
empty file. -/
theorem C8_witness :
    filterChunk (Chunk.mk [] [ChunkLines.context [['a']]]) = none ↔
      ∀ cl ∈ (Chunk.mk []
          [ChunkLines.context [['a']]]).lineses.filterMap filterChunkLines,
        isChangedCL cl = false :=
  (C8_discard_iff (Chunk.mk [] [ChunkLines.context [['a']]]) (FileDiff.mk [] [])).1

/-- C9.  The filter is a pure selection: every surviving block is one of
the original blocks unchanged, context blocks always survive the per-block
pass, and surviving hunks and files keep their headers (and their blocks
are exactly the filtered originals). -/
theorem C9_filter_frame :
    (∀ (L : List ChunkLines) (cl : ChunkLines),
        cl ∈ L.filterMap filterChunkLines → cl ∈ L) ∧
    (∀ (L : List ChunkLines) (lines : List (List Char)),
        ChunkLines.context lines ∈ L →
        ChunkLines.context lines ∈ L.filterMap filterChunkLines) ∧
    (∀ ch ch', filterChunk ch = some ch' →
        ch'.header = ch.header ∧
        ch'.lineses = ch.lineses.filterMap filterChunkLines) ∧
    (∀ f f', filterFile f = some f' →
        f'.header = f.header ∧ f'.chunks = f.chunks.filterMap filterChunk) := by
  refine ⟨?_, ?_, ?_, ?_⟩
  · intro L cl h
    obtain ⟨a, ha, hfa⟩ := List.mem_filterMap.mp h
    obtain rfl : cl = a := filterChunkLines_some_eq hfa
    exact ha
  · intro L lines h
    exact List.mem_filterMap.mpr ⟨ChunkLines.context lines, h, rfl⟩
  · intro ch ch' h
    simp only [filterChunk] at h
    split at h
    · obtain rfl : ch' = Chunk.mk ch.header (ch.lineses.filterMap filterChunkLines) :=
        (Option.some.inj h).symm
      exact ⟨rfl, rfl⟩
    · cases h
  · intro f f' h
    simp only [filterFile] at h
    split at h
    · cases h
    · obtain rfl : f' = FileDiff.mk f.header (f.chunks.filterMap filterChunk) :=
        (Option.some.inj h).symm
      exact ⟨rfl, rfl⟩

/-- C9 witness: a context block surviving the per-block filter. -/
theorem C9_witness :
    ChunkLines.context [['a']] ∈
      List.filterMap filterChunkLines [ChunkLines.context [['a']]] :=
  C9_filter_frame.2.1 [ChunkLines.context [['a']]] [['a']] (by decide)

/-- If one element of the list fails, the short-circuiting map fails. -/
theorem mapME_error_of_mem {f : α → Except String β} {l : List α} {x : α}
    {e : String} (hx : x ∈ l) (hfx : f x = .error e) :
    ∃ e', mapME f l = .error e' := by
  induction l with
  | nil => cases hx
  | cons y ys ih =>
    rcases List.mem_cons.mp hx with rfl | hx'
    · exact ⟨e, by simp only [mapME]; rw [hfx]⟩
    · simp only [mapME]
      cases hfy : f y with
      | error e2 => exact ⟨e2, rfl⟩
      | ok v =>
        obtain ⟨e', he'⟩ := ih hx'
        rw [he']
        exact ⟨e', rfl⟩

/-- If the short-circuiting map succeeds, every element's image is in the
result. -/
theorem mapME_ok_mem {f : α → Except String β} {l : List α} {r : List β}
    {x : α} {y : β} (hl : mapME f l = .ok r) (hx : x ∈ l)
    (hfx : f x = .ok y) : y ∈ r := by
  induction l generalizing r with
  | nil => cases hx
  | cons a as ih =>
    simp only [mapME] at hl
    cases hfa : f a with
    | error e => rw [hfa] at hl; cases hl
    | ok v =>
      rw [hfa] at hl
      cases hrest : mapME f as with
      | error e => rw [hrest] at hl; cases hl
      | ok vs =>
        rw [hrest] at hl
        obtain rfl : v :: vs = r := Except.ok.inj hl
        rcases List.mem_cons.mp hx with rfl | hx'
        · rw [hfa] at hfx
          obtain rfl : v = y := Except.ok.inj hfx
          exact List.mem_cons_self _ _
        · exact List.mem_cons_of_mem _ (ih hrest hx')

/-- The grouping worker never returns an empty list of groups. -/
theorem chunkByAux_ne_nil (p : α → α → Bool) (a : α) (l : List α) :
    chunkByAux p a l ≠ [] := by
  induction l generalizing a with
  | nil => simp [chunkByAux]
  | cons b l ih =>
    simp only [chunkByAux]
    split
    · cases chunkByAux p b l <;> simp
    · simp

/-- The first group returned by the worker starts with its seed element. -/
theorem chunkByAux_head (p : α → α → Bool) (a : α) (l : List α) :
    ∃ t gs, chunkByAux p a l = (a :: t) :: gs := by
  induction l generalizing a with
  | nil => exact ⟨[], [], rfl⟩
  | cons b l ih =>
    simp only [chunkByAux]
    split
    · obtain ⟨t, gs, h⟩ := ih b
      rw [h]
      exact ⟨b :: t, gs, rfl⟩
    · exact ⟨[], chunkByAux p b l, rfl⟩

/-- Concatenating the groups of the worker restores the original list. -/
theorem chunkByAux_flatten (p : α → α → Bool) (a : α) (l : List α) :
    (chunkByAux p a l).flatten = a :: l := by
  induction l generalizing a with
  | nil => simp [chunkByAux]
  | cons b l ih =>
    simp only [chunkByAux]
    split
    · obtain ⟨t, gs, h⟩ := chunkByAux_head p b l
      have hb := ih b
      rw [h] at hb ⊢
      simp only [List.flatten_cons] at hb ⊢
      rw [List.cons_append, hb]
    · simp only [List.flatten_cons, List.singleton_append]
      rw [ih b]

/-- Concatenating the groups of `chunkBy` restores the original list. -/
theorem chunkBy_flatten (p : α → α → Bool) (l : List α) :
    (chunkBy p l).flatten = l := by
  cases l with
  | nil => rfl
  | cons a l => exact chunkByAux_flatten p a l

/-- Inside every group of the worker, adjacent elements satisfy the
grouping predicate. -/
theorem chunkByAux_chain (p : α → α → Bool) (a : α) (l : List α) :
    ∀ g ∈ chunkByAux p a l, List.Chain' (fun x y => p x y = true) g := by
  induction l generalizing a with
  | nil =>
    intro g hg
    simp only [chunkByAux, List.mem_singleton] at hg
    subst hg
    exact List.chain'_singleton a
  | cons b l ih =>
    intro g hg
    simp only [chunkByAux] at hg
    split at hg
    · rename_i hpab
      obtain ⟨t, gs, h⟩ := chunkByAux_head p b l
      rw [h] at hg
      rcases List.mem_cons.mp hg with rfl | hg'
      · have hbt := ih b (b :: t) (by rw [h]; exact List.mem_cons_self _ _)
        exact List.chain'_cons.mpr ⟨hpab, hbt⟩
      · exact ih b g (by rw [h]; exact List.mem_cons_of_mem _ hg')
    · rcases List.mem_cons.mp hg with rfl | hg'
      · exact List.chain'_singleton a
      · exact ih b g hg'

/-- Inside every group of `chunkBy`, adjacent elements satisfy the
predicate. -/
theorem chunkBy_chain (p : α → α → Bool) (l : List α) :
    ∀ g ∈ chunkBy p l, List.Chain' (fun x y => p x y = true) g := by
  cases l with
  | nil => intro g hg; cases hg
  | cons a l => exact chunkByAux_chain p a l

/-- A property that propagates backwards along a chain reaches the head of
the list from any member. -/
theorem chain_prop_head {R : α → α → Prop} {Q : α → Prop}
    (hback : ∀ u v, R u v → Q v → Q u) :
    ∀ (g : List α), List.Chain' R g → ∀ x ∈ g, Q x →
      ∃ h t, g = h :: t ∧ Q h := by
  intro g
  induction g with
  | nil => intro _ x hx; cases hx
  | cons a as ih =>
    intro hchain x hx hQx
    rcases List.mem_cons.mp hx with rfl | hx'
    · exact ⟨x, as, rfl, hQx⟩
    · cases as with
      | nil => cases hx'
      | cons b bs =>
        have h2 := List.chain'_cons.mp hchain
        obtain ⟨h, t, heq, hQh⟩ := ih h2.2 x hx' hQx
        obtain ⟨hb, -⟩ := List.cons.inj heq
        exact ⟨a, b :: bs, rfl, hback a b h2.1 (hb ▸ hQh)⟩

/-- A hunk body containing a line whose tag is not a space, `-` or `+`
makes the block parser fail. -/
theorem parseChunkText_error_of_bad (s : List Char) (c : Char)
    (hc1 : c ≠ ' ') (hc2 : c ≠ '-') (hc3 : c ≠ '+')
    (hl : ∃ l ∈ splitLines s, l.head? = some c) :
    ∃ e, parseChunkText s = .error e := by
  obtain ⟨l, hlmem, hhead⟩ := hl
  cases l with
  | nil => cases hhead
  | cons c0 rest =>
    have hcc : c0 = c := by simpa using hhead
    replace hc1 : c0 ≠ ' ' := fun h => hc1 (hcc.symm.trans h)
    replace hc2 : c0 ≠ '-' := fun h => hc2 (hcc.symm.trans h)
    replace hc3 : c0 ≠ '+' := fun h => hc3 (hcc.symm.trans h)
    cases hmap : mapME parseLine (splitLines s) with
    | error e => exact ⟨e, by unfold parseChunkText; rw [hmap]⟩
    | ok tagged =>
      have hmem2 : (c0, rest) ∈ tagged := mapME_ok_mem hmap hlmem rfl
      have hflat : (c0, rest) ∈ (chunkBy tagPred tagged).flatten := by
        rw [chunkBy_flatten]
        exact hmem2
      obtain ⟨g, hgmem, hxg⟩ := List.mem_flatten.mp hflat
      have hchain := chunkBy_chain tagPred tagged g hgmem
      have hback : ∀ u v : Char × List Char,
          tagPred u v = true → v.fst = c0 → u.fst = c0 := by
        intro u v huv hvc
        simp only [tagPred, Bool.or_eq_true, Bool.and_eq_true, beq_iff_eq] at huv
        rcases huv with h1 | ⟨h2, h3⟩
        · rw [h1, hvc]
        · rw [hvc] at h3
          exact absurd h3 hc3
      obtain ⟨h0, t0, hgeq, hQ⟩ :=
        chain_prop_head hback g hchain (c0, rest) hxg rfl
      have herr : mkChunkLines g = .error "Unexpected prefix characters" := by
        rw [hgeq]
        simp only [mkChunkLines]
        rw [if_neg (fun hcon => hc1 (hQ.symm.trans hcon.1))]
        rw [if_neg ?_]
        rintro (⟨hp, -⟩ | ⟨hp, -⟩ | ⟨hp, -⟩)
        · exact hc3 (hQ.symm.trans hp)
        · exact hc2 (hQ.symm.trans hp)
        · exact hc2 (hQ.symm.trans hp)
      obtain ⟨e, he⟩ := mapME_error_of_mem hgmem herr
      exact ⟨e, by unfold parseChunkText; rw [hmap]; exact he⟩

/-- A failing hunk body inside a file's hunk text makes `parseChunks`
fail. -/
theorem parseChunks_error_of_mem {t ct : List Char}
    (hmem : ct ∈ (chunkSpans t).map Prod.snd)
    (herr : ∃ e, parseChunkText ct = .error e) :
    ∃ e, parseChunks t = .error e := by
  obtain ⟨p, hp, hsnd⟩ := List.mem_map.mp hmem
  obtain ⟨e, he⟩ := herr
  have hfp : (match parseChunkText p.2 with
      | .error e => (.error e : Except String Chunk)
      | .ok ls => .ok (Chunk.mk p.1 ls)) = .error e := by
    rw [hsnd, he]
  exact mapME_error_of_mem hp hfp

/-- A failing hunk text among the files' hunk texts makes `buildFiles`
fail. -/
theorem buildFiles_error_of_mem :
    ∀ (spans : List (List Char × List Char)) (ct : List Char),
      ct ∈ chunksTexts spans → (∃ e, parseChunks ct = .error e) →
      ∃ e, buildFiles spans = .error e := by
  intro spans
  induction spans with
  | nil => intro ct h _; cases h
  | cons x rest ih =>
    cases rest with
    | nil =>
      intro ct hmem herr
      obtain ⟨h, c⟩ := x
      simp only [chunksTexts, List.mem_singleton] at hmem
      subst hmem
      obtain ⟨e, he⟩ := herr
      exact ⟨e, by simp only [buildFiles]; rw [he]⟩
    | cons y rest2 =>
      intro ct hmem herr
      obtain ⟨hx, cx⟩ := x
      simp only [chunksTexts] at hmem
      rcases List.mem_cons.mp hmem with rfl | hmem'
      · obtain ⟨e, he⟩ := herr
        exact ⟨e, by simp only [buildFiles]; rw [he]⟩
      · cases hpc : parseChunks cx with
        | error e => exact ⟨e, by simp only [buildFiles]; rw [hpc]⟩
        | ok chs =>
          obtain ⟨e, he⟩ := ih ct hmem' herr
          exact ⟨e, by simp only [buildFiles]; rw [hpc, he]⟩

/-- A failing hunk body anywhere in the input's decomposition makes the
whole run fail, before anything is printed. -/
theorem run_error_of_content {input content : List Char}
    (hmem : content ∈ allChunkContents input)
    (herr : ∃ e, parseChunkText content = .error e) :
    ∃ e, run input = .error e := by
  obtain ⟨l, hl, hcl⟩ := List.mem_flatten.mp hmem
  obtain ⟨ct, hct, rfl⟩ := List.mem_map.mp hl
  have h1 := parseChunks_error_of_mem hcl herr
  obtain ⟨e, he⟩ := buildFiles_error_of_mem (fileSpans input) ct hct h1
  exact ⟨e, by unfold run parseInput; rw [he]⟩

/-- C5.  Any input whose decomposition contains a hunk-body line whose
first character is none of space, `-`, `+` or the no-newline marker makes
the run abort with a parse failure (the `panic!` of the source, modelled
as the error value), and no output is produced. -/
theorem C5_bad_tag_fatal (input : List Char)
    (h : ∃ content ∈ allChunkContents input, ∃ l ∈ splitLines content,
      ∃ cb, l.head? = some cb ∧ cb ≠ ' ' ∧ cb ≠ '-' ∧ cb ≠ '+' ∧ cb ≠ '\\') :
    ∃ e, run input = Except.error e := by
  obtain ⟨content, hc, l, hl, cb, hh, h1, h2, h3, -⟩ := h
  exact run_error_of_content hc
    (parseChunkText_error_of_bad content cb h1 h2 h3 ⟨l, hl, hh⟩)

/-- C5 witness: a hunk body line prefixed `*` aborts the run. -/
theorem C5_witness : ∃ e, run c5input = Except.error e :=
  C5_bad_tag_fatal c5input
    ⟨"*x\n".toList, by decide, "*x".toList, by decide, '*', rfl,
      by decide, by decide, by decide, by decide⟩

/-- C4 counterexample.  On a valid diff whose last hunk line is the
no-newline marker with the exact expected annotation payload, parsing
fails with the unexpected-prefix panic: the marker is not attached to the
preceding line, and the failure does not depend on the payload. -/
theorem C4_counterexample :
    parseInput c4input = Except.error "Unexpected prefix characters" := rfl

/-- C4 amended.  Every hunk-body line beginning with the no-newline
continuation marker makes parsing fail (the unexpected-prefix panic of
the source), whatever its payload; no annotation handling exists. -/
theorem C4_marker_fatal (input : List Char)
    (h : ∃ content ∈ allChunkContents input, ∃ l ∈ splitLines content,
      l.head? = some '\\') :
    ∃ e, run input = Except.error e := by
  obtain ⟨content, hc, l, hl, hh⟩ := h
  exact run_error_of_content hc
    (parseChunkText_error_of_bad content '\\' (by decide) (by decide)
      (by decide) ⟨l, hl, hh⟩)

/-- C4 witness: the amended theorem applied to the concrete marker
input. -/
theorem C4_marker_fatal_witness : ∃ e, run c4input = Except.error e :=
  C4_marker_fatal c4input
    ⟨"-x\n+y\n\\ No newline at end of file".toList, by decide,
      "\\ No newline at end of file".toList, by decide, rfl⟩

/-- C10.  Any input whose decomposition contains an empty hunk-body line
aborts the run: the `split_at(1)` of the source is out of bounds (modelled
as the error value), rather than the line being classified as context or
reported as a structured parse error. -/
theorem C10_empty_line_fatal (input : List Char)
    (h : ∃ content ∈ allChunkContents input, [] ∈ splitLines content) :
    ∃ e, run input = Except.error e := by
  obtain ⟨content, hc, hl⟩ := h
  refine run_error_of_content hc ?_
  obtain ⟨e, he⟩ :=
    mapME_error_of_mem hl
      (rfl : parseLine [] = Except.error "byte index 1 is out of bounds")
  exact ⟨e, by unfold parseChunkText; rw [he]⟩

/-- C10 witness: an empty line between two context lines aborts the
run. -/
theorem C10_empty_line_witness : ∃ e, run c10input = Except.error e :=
  C10_empty_line_fatal c10input
    ⟨" x\n\n y\n".toList, by decide, by decide⟩

/-- Taking at most the first component of an append stays in it. -/
theorem take_append_le : ∀ (n : Nat) (u v : List α), n ≤ u.length →
    (u ++ v).take n = u.take n := by
  intro n u v
  induction u generalizing n with
  | nil =>
    intro h
    obtain rfl : n = 0 := Nat.le_zero.mp h
    rfl
  | cons a u ih =>
    intro h
    cases n with
    | zero => rfl
    | succ n =>
      simp only [List.cons_append, List.take_succ_cons]
      rw [ih n (by simpa using h)]

/-- Dropping at most the first component of an append drops inside it. -/
theorem drop_append_le : ∀ (n : Nat) (u v : List α), n ≤ u.length →
    (u ++ v).drop n = u.drop n ++ v := by
  intro n u v
  induction u generalizing n with
  | nil =>
    intro h
    obtain rfl : n = 0 := Nat.le_zero.mp h
    rfl
  | cons a u ih =>
    intro h
    cases n with
    | zero => rfl
    | succ n =>
      simp only [List.cons_append, List.drop_succ_cons]
      exact ih n (by simpa using h)

/-- Dropping past the first component of an append drops in the second. -/
theorem drop_append_add : ∀ (u v : List α) (n : Nat),
    (u ++ v).drop (u.length + n) = v.drop n := by
  intro u v n
  induction u with
  | nil => simp
  | cons a u ih =>
    show (a :: (u ++ v)).drop (u.length + 1 + n) = v.drop n
    rw [show u.length + 1 + n = (u.length + n) + 1 from by omega,
      List.drop_succ_cons]
    exact ih

/-- A prefix of an append that fits inside the first component is a prefix
of that component. -/
theorem prefix_of_append_of_le {p u v : List α} (h : p <+: u ++ v)
    (hle : p.length ≤ u.length) : p <+: u := by
  obtain ⟨t, ht⟩ := h
  have h1 := List.take_left p t
  rw [ht] at h1
  rw [take_append_le _ _ _ hle] at h1
  have hp : p = u.take p.length := h1.symm
  refine ⟨u.drop p.length, ?_⟩
  nth_rewrite 1 [hp]
  exact List.take_append_drop _ _

/-- If two lists differ at an index inside the second list, the first is
not a prefix of the second followed by anything. -/
theorem not_prefix_of_get_ne {p q b : List α} {k : Nat}
    (hk : k < q.length) (hsome : p.get? k ≠ none)
    (hne : p.get? k ≠ q.get? k) : ¬ p <+: (q ++ b) := by
  intro h
  obtain ⟨t, ht⟩ := h
  have hkp : k < p.length := by
    rcases Nat.lt_or_ge k p.length with h' | h'
    · exact h'
    · exact absurd (List.get?_eq_none.mpr h') hsome
  have h1 : (p ++ t).get? k = p.get? k := List.get?_append hkp
  have h2 : (q ++ b).get? k = q.get? k := List.get?_append hk
  rw [ht] at h1
  exact hne (h1.symm.trans h2)

/-- Computing `replaceAllF` does not depend on the fuel, as long as the
fuel is at least the length of the list. -/
theorem replaceAllF_fuel (p r : List Char) :
    ∀ (f1 : Nat), ∀ (s : List Char) (f2 : Nat), s.length ≤ f1 → s.length ≤ f2 →
      replaceAllF p r f1 s = replaceAllF p r f2 s := by
  intro f1
  induction f1 with
  | zero =>
    intro s f2 h1 _
    obtain rfl : s = [] := List.length_eq_zero.mp (Nat.le_zero.mp h1)
    cases f2 <;> rfl
  | succ f1 ih =>
    intro s f2 h1 h2
    cases s with
    | nil => cases f2 <;> rfl
    | cons c s' =>
      cases f2 with
      | zero => simp at h2
      | succ f2' =>
        simp only [replaceAllF]
        by_cases hcond : (!p.isEmpty && p.isPrefixOf (c :: s')) = true
        · rw [if_pos hcond, if_pos hcond]
          have hlen : (s'.drop (p.length - 1)).length ≤ f1 := by
            rw [List.length_drop]
            have := Nat.succ_le_succ_iff.mp (by simpa using h1)
            omega
          have hlen2 : (s'.drop (p.length - 1)).length ≤ f2' := by
            rw [List.length_drop]
            have := Nat.succ_le_succ_iff.mp (by simpa using h2)
            omega
          rw [ih (s'.drop (p.length - 1)) f2' hlen hlen2]
        · rw [if_neg hcond, if_neg hcond]
          have hlen : s'.length ≤ f1 := Nat.succ_le_succ_iff.mp (by simpa using h1)
          have hlen2 : s'.length ≤ f2' := Nat.succ_le_succ_iff.mp (by simpa using h2)
          rw [ih s' f2' hlen hlen2]

/-- If the pattern occurs nowhere in the list, replacement is the
identity. -/
theorem replaceAllF_no_occ (p r : List Char) :
    ∀ (fuel : Nat) (s : List Char), s.length ≤ fuel →
      (∀ i, ¬ subAt p s i) → replaceAllF p r fuel s = s := by
  intro fuel
  induction fuel with
  | zero =>
    intro s h1 _
    obtain rfl : s = [] := List.length_eq_zero.mp (Nat.le_zero.mp h1)
    rfl
  | succ fuel ih =>
    intro s h1 hno
    cases s with
    | nil => rfl
    | cons c s' =>
      simp only [replaceAllF]
      have hcond : ¬ ((!p.isEmpty && p.isPrefixOf (c :: s')) = true) := by
        intro hcon
        rw [Bool.and_eq_true] at hcon
        exact hno 0 (List.isPrefixOf_iff_prefix.mp hcon.2)
      rw [if_neg hcond]
      rw [ih s' (Nat.succ_le_succ_iff.mp (by simpa using h1))
        (fun i hi => hno (i + 1) hi)]

/-- `replaceAll` is the identity when the pattern never occurs. -/
theorem replaceAll_no_occ (p r s : List Char) (hno : ∀ i, ¬ subAt p s i) :
    replaceAll p r s = s :=
  replaceAllF_no_occ p r s.length s (Nat.le_refl _) hno

/-- Computation of `replaceAll` at the first occurrence of the pattern:
the scan copies everything before it, emits the replacement, and continues
after the occurrence. -/
theorem replaceAll_first_occ (p r : List Char) (hp : p ≠ []) :
    ∀ (j : Nat) (s : List Char), (∀ i < j, ¬ subAt p s i) → subAt p s j →
      replaceAll p r s =
        s.take j ++ r ++ replaceAll p r (s.drop (j + p.length)) := by
  intro j
  induction j with
  | zero =>
    intro s _ hocc
    have hocc' : p <+: s := hocc
    cases s with
    | nil =>
      obtain rfl : p = [] := List.prefix_nil.mp hocc'
      exact absurd rfl hp
    | cons c s' =>
      have hplen : 1 ≤ p.length := by
        cases p with
        | nil => exact absurd rfl hp
        | cons _ _ => simp
      show replaceAllF p r (s'.length + 1) (c :: s') = _
      simp only [replaceAllF]
      rw [if_pos (by
        rw [Bool.and_eq_true]
        exact ⟨by simpa using hp, List.isPrefixOf_iff_prefix.mpr hocc'⟩)]
      have hd : (c :: s').drop (0 + p.length) = s'.drop (p.length - 1) := by
        rw [Nat.zero_add]
        obtain ⟨k, hk⟩ : ∃ k, p.length = k + 1 := ⟨p.length - 1, by omega⟩
        rw [hk]
        simp [List.drop_succ_cons]
      rw [List.take_zero, List.nil_append, hd]
      show r ++ replaceAllF p r s'.length (s'.drop (p.length - 1)) =
        r ++ replaceAll p r (s'.drop (p.length - 1))
      rw [replaceAllF_fuel p r s'.length (s'.drop (p.length - 1))
        (s'.drop (p.length - 1)).length
        (by rw [List.length_drop]; omega) (Nat.le_refl _)]
      rfl
  | succ j ih =>
    intro s hlt hocc
    cases s with
    | nil =>
      have hocc' : p <+: ([] : List Char) := by
        have : p <+: List.drop (j + 1) [] := hocc
        simpa using this
      obtain rfl : p = [] := List.prefix_nil.mp hocc'
      exact absurd rfl hp
    | cons c s' =>
      show replaceAllF p r (s'.length + 1) (c :: s') = _
      simp only [replaceAllF]
      have hcond : ¬ ((!p.isEmpty && p.isPrefixOf (c :: s')) = true) := by
        intro hcon
        rw [Bool.and_eq_true] at hcon
        exact hlt 0 (Nat.succ_pos j) (List.isPrefixOf_iff_prefix.mp hcon.2)
      rw [if_neg hcond]
      have hih := ih s' (fun i hi => hlt (i + 1) (Nat.succ_lt_succ hi)) hocc
      have hwrap : replaceAllF p r s'.length s' = replaceAll p r s' := rfl
      rw [hwrap, hih]
      rw [show (c :: s').take (j + 1) = c :: s'.take j from rfl]
      rw [show (c :: s').drop (j + 1 + p.length) = s'.drop (j + p.length) from by
        rw [show j + 1 + p.length = (j + p.length) + 1 from by omega,
          List.drop_succ_cons]]
      simp [List.cons_append]

/-- Folding replacement rules none of whose patterns occur in the text is
the identity. -/
theorem foldl_replace_no_occ :
    ∀ (L : List (List Char × List Char)) (t : List Char),
      (∀ pr ∈ L, ∀ i, ¬ subAt pr.1 t i) →
      L.foldl (fun cur r => replaceAll r.1 r.2 cur) t = t := by
  intro L
  induction L with
  | nil => intro t _; rfl
  | cons x xs ih =>
    intro t hno
    have hx : replaceAll x.1 x.2 t = t :=
      replaceAll_no_occ _ _ _ (hno x (List.mem_cons_self _ _))
    simp only [List.foldl_cons]
    rw [hx]
    exact ih t (fun pr hpr => hno pr (List.mem_cons_of_mem _ hpr))

/-- If the marker `ET_` occurs in neither `a` nor `b`, then it does not
occur in `a ++ (tapDownRep ++ b)` at all: the replacement text contains no
occurrence, and none can straddle the junctions. -/
theorem no_etMark_in_rep (a b : List Char)
    (hnA : ∀ i, ¬ subAt etMark a i) (hnB : ∀ i, ¬ subAt etMark b i) :
    ∀ i, ¬ subAt etMark (a ++ (tapDownRep ++ b)) i := by
  have h3 : etMark.length = 3 := rfl
  have hRlen : tapDownRep.length = 26 := rfl
  have hR24 : ∀ k ∈ List.range 24, ¬ (etMark <+: tapDownRep.drop k) := by decide
  intro i hi
  have hi' : etMark <+: (a ++ (tapDownRep ++ b)).drop i := hi
  rcases Nat.lt_or_ge i a.length with hlt | hge
  · rcases le_or_lt (i + 3) a.length with hfit | hjunc
    · rw [drop_append_le _ _ _ (Nat.le_of_lt hlt)] at hi'
      have hin : etMark <+: a.drop i :=
        prefix_of_append_of_le hi'
          (by rw [List.length_drop]; omega)
      exact hnA i hin
    · rw [drop_append_le _ _ _ (Nat.le_of_lt hlt)] at hi'
      obtain ⟨t, ht⟩ := hi'
      have hm : (a.drop i).length = a.length - i := List.length_drop _ _
      have hL : (etMark ++ t).get? (a.drop i).length
          = etMark.get? (a.drop i).length :=
        List.get?_append (by omega)
      have hRt : (a.drop i ++ (tapDownRep ++ b)).get? (a.drop i).length
          = (tapDownRep ++ b).get? 0 := by
        rw [List.get?_append_right (Nat.le_refl _)]
        simp
      rw [ht] at hL
      have hEq : etMark.get? (a.drop i).length = (tapDownRep ++ b).get? 0 :=
        hL.symm.trans hRt
      have hRE : (tapDownRep ++ b).get? 0 = some 'E' := by
        rw [List.get?_append (by rw [hRlen]; omega)]
        rfl
      rw [hRE] at hEq
      have hm12 : (a.drop i).length = 1 ∨ (a.drop i).length = 2 := by omega
      rcases hm12 with hm1 | hm1 <;> rw [hm1] at hEq <;>
        exact absurd hEq (by decide)
  · obtain ⟨k, rfl⟩ : ∃ k, i = a.length + k := ⟨i - a.length, by omega⟩
    rw [drop_append_add] at hi'
    rcases le_or_lt (k + 3) tapDownRep.length with hfit | hj
    · rw [drop_append_le _ _ _ (by omega)] at hi'
      have hin : etMark <+: tapDownRep.drop k :=
        prefix_of_append_of_le hi'
          (by rw [List.length_drop]; omega)
      exact hR24 k (List.mem_range.mpr (by omega)) hin
    · rcases Nat.lt_or_ge k tapDownRep.length with hk26 | hk26
      · rw [drop_append_le _ _ _ (Nat.le_of_lt hk26)] at hi'
        obtain ⟨t, ht⟩ := hi'
        have h0 : (etMark ++ t).get? 0 = some 'E' := rfl
        rw [ht] at h0
        rw [List.get?_append (by rw [List.length_drop]; omega)] at h0
        have hk45 : k = 24 ∨ k = 25 := by omega
        rcases hk45 with rfl | rfl <;> exact absurd h0 (by decide)
      · obtain ⟨k2, rfl⟩ : ∃ k2, k = tapDownRep.length + k2 :=
          ⟨k - tapDownRep.length, by omega⟩
        rw [drop_append_add] at hi'
        exact hnB k2 hi'

/-- C7 amended.  If the only occurrence of the marker `ET_` in
`a ++ (ET_GESTURE_TAP_DOWN ++ b)` is the one opening the tap-down token
(in particular no earlier rule's pattern can overlap it, as one does in
`C7_counterexample`), then the ordered table rewrites the token via the
longer tap-down rule, and the shorter `ET_GESTURE_TAP` rule listed later
never produces a corrupted mixed string: the result is exactly
`a ++ (EventType::kGestureTapDown ++ b)`. -/
theorem C7_order (a b : List Char)
    (h : ∀ i < (a ++ (tapDownPat ++ b)).length,
      subAt etMark (a ++ (tapDownPat ++ b)) i → i = a.length) :
    applyReplacements (a ++ (tapDownPat ++ b)) = a ++ (tapDownRep ++ b) := by
  have h3 : etMark.length = 3 := rfl
  have hT : tapDownPat.length = 19 := rfl
  have hub : ∀ i, subAt etMark (a ++ (tapDownPat ++ b)) i → i = a.length := by
    intro i hi
    have hi' : etMark <+: (a ++ (tapDownPat ++ b)).drop i := hi
    have hlen := List.IsPrefix.length_le hi'
    rw [List.length_drop] at hlen
    exact h i (by omega) hi
  have hnA : ∀ i, ¬ subAt etMark a i := by
    intro i hia
    have hia' : etMark <+: a.drop i := hia
    have hbound : i + 3 ≤ a.length := by
      have := List.IsPrefix.length_le hia'
      rw [List.length_drop] at this
      omega
    have hlift : subAt etMark (a ++ (tapDownPat ++ b)) i := by
      show etMark <+: (a ++ (tapDownPat ++ b)).drop i
      rw [drop_append_le _ _ _ (by omega)]
      exact hia'.trans (List.prefix_append _ _)
    have := hub i hlift
    omega
  have hnB : ∀ i, ¬ subAt etMark b i := by
    intro i hib
    have hib' : etMark <+: b.drop i := hib
    have hlift : subAt etMark (a ++ (tapDownPat ++ b))
        (a.length + (tapDownPat.length + i)) := by
      show etMark <+: (a ++ (tapDownPat ++ b)).drop
        (a.length + (tapDownPat.length + i))
      rw [drop_append_add, drop_append_add]
      exact hib'
    have := hub _ hlift
    omega
  have hpatET : ∀ pr ∈ REPLACEMENTS, etMark <+: pr.1 := by decide
  have hdiv : ∀ pr ∈ REPLACEMENTS.take 20, ∃ k ∈ List.range 19,
      pr.1.get? k ≠ none ∧ pr.1.get? k ≠ tapDownPat.get? k := by decide
  have hpre : ∀ pr ∈ REPLACEMENTS.take 20, ∀ i,
      ¬ subAt pr.1 (a ++ (tapDownPat ++ b)) i := by
    intro pr hpr i hi
    have hi' : pr.1 <+: (a ++ (tapDownPat ++ b)).drop i := hi
    have hiET : subAt etMark (a ++ (tapDownPat ++ b)) i :=
      (hpatET pr (List.take_subset _ _ hpr)).trans hi'
    obtain rfl : i = a.length := hub i hiET
    have hi2 : pr.1 <+: tapDownPat ++ b := by
      have h5 := hi'
      rw [List.drop_left] at h5
      exact h5
    obtain ⟨k, hk, hsome, hne⟩ := hdiv pr hpr
    have hkT : k < tapDownPat.length := by
      have := List.mem_range.mp hk
      omega
    exact not_prefix_of_get_ne hkT hsome hne hi2
  have hETtap : etMark <+: tapDownPat := by decide
  have hTne : tapDownPat ≠ [] := by decide
  have hoccT : subAt tapDownPat (a ++ (tapDownPat ++ b)) a.length := by
    show tapDownPat <+: (a ++ (tapDownPat ++ b)).drop a.length
    rw [List.drop_left]
    exact List.prefix_append _ _
  have hfirstT : ∀ i < a.length,
      ¬ subAt tapDownPat (a ++ (tapDownPat ++ b)) i := by
    intro i hilt hocc
    have hocc' : tapDownPat <+: (a ++ (tapDownPat ++ b)).drop i := hocc
    have hiET : subAt etMark (a ++ (tapDownPat ++ b)) i := hETtap.trans hocc'
    have := hub i hiET
    omega
  have hTb : ∀ i, ¬ subAt tapDownPat b i := by
    intro i hib
    have hib' : tapDownPat <+: b.drop i := hib
    exact hnB i (hETtap.trans hib')
  have hstep : replaceAll tapDownPat tapDownRep (a ++ (tapDownPat ++ b)) =
      a ++ (tapDownRep ++ b) := by
    rw [replaceAll_first_occ tapDownPat tapDownRep hTne a.length _ hfirstT hoccT]
    rw [show (a ++ (tapDownPat ++ b)).take a.length = a from List.take_left a _]
    rw [show (a ++ (tapDownPat ++ b)).drop (a.length + tapDownPat.length) = b from by
      rw [drop_append_add, List.drop_left]]
    rw [replaceAll_no_occ _ _ _ hTb]
    rw [List.append_assoc]
  have hpost : ∀ pr ∈ REPLACEMENTS.drop 21, ∀ i,
      ¬ subAt pr.1 (a ++ (tapDownRep ++ b)) i := by
    intro pr hpr i hi
    have hi' : pr.1 <+: (a ++ (tapDownRep ++ b)).drop i := hi
    exact no_etMark_in_rep a b hnA hnB i
      ((hpatET pr (List.drop_subset _ _ hpr)).trans hi')
  have hsplit : REPLACEMENTS = REPLACEMENTS.take 20 ++
      (tapDownPat, tapDownRep) :: REPLACEMENTS.drop 21 := by decide
  show REPLACEMENTS.foldl (fun cur r => replaceAll r.1 r.2 cur)
      (a ++ (tapDownPat ++ b)) = a ++ (tapDownRep ++ b)
  nth_rewrite 1 [hsplit]
  rw [List.foldl_append]
  rw [foldl_replace_no_occ (REPLACEMENTS.take 20) _ hpre]
  simp only [List.foldl_cons]
  rw [hstep]
  exact foldl_replace_no_occ (REPLACEMENTS.drop 21) _ hpost

/-- C7 witness: the amended theorem applied to a concrete surrounding
context with no stray `ET_` marker. -/
theorem C7_order_witness :
    applyReplacements ("x = ".toList ++ (tapDownPat ++ ";".toList)) =
      "x = ".toList ++ (tapDownRep ++ ";".toList) :=
  C7_order ("x = ".toList) (";".toList) (by decide)
